import Mathlib

/-!
# A verification model of `xmlu.py` (XML unmarshalling engine)

This file gives a shallow embedding, in Lean, of the schema-directed
conversion engine of `src/xmlu.py` (a Python 2 module), and proves the
frozen claims about it.

Modelling conventions, stated once here:

* An XML element (`etree._Element`) is modelled by `XNode`: a tag, an
  attribute map (association list with unique keys), an optional text
  (`None` is `Option.none`; lxml distinguishes absent text from the empty
  string), and the ordered list of child elements.
* Python values produced by conversion are modelled by `Val`.  Floating
  point and complex *values* are outside the shallow embedding (no claim
  observes them); for those two scalar kinds we model the exact
  acceptance grammar of Python's `float()` / `complex()` parsers and
  carry the accepted literal text in the value.
* Python exceptions raised during conversion are modelled with
  `Except PErr`.  The source contains no `try`/`except`, so monadic
  propagation is the faithful embedding of exception propagation.
* Text strings are modelled at the Python 2 `str` (byte-string) level and
  assumed ASCII, matching the doctests of the source; the `unicode`
  branches of `Str._convert` are therefore unreachable in the model and
  are noted where they occur.
* An `Object` schema's fields are a Python class/instance dictionary that
  `Object._convert` enumerates via `dir(self)`, i.e. as a *sorted list of
  distinct names*.  We model the field collection as the association list
  `List (String × Schema)` *already in `dir()` enumeration order*, with
  distinct keys; the `isinstance(val, Type)` test of the source is
  reflected by the fields being `Schema`-valued by construction.
* The default output aggregate `Object._Object` is an insertion-ordered
  name-to-value dictionary (Python instance `__dict__`), modelled as an
  association list where assigning to an existing key replaces the value
  in place and assigning a fresh key appends.  Custom output factories
  and injected attribute converters (`type=` parameters) are modelled at
  their defaults (`_Object`, `str`), which is what every claim uses.
-/

/-- Association-list lookup (first binding wins), modelling a Python
dictionary read `d.get(k)` / `k in d`. -/
def lookupA {α : Type} : List (String × α) → String → Option α
  | [], _ => none
  | (k, a) :: rest, key => if k = key then some a else lookupA rest key

/-- Association-list assignment, modelling Python dictionary assignment
`d[k] = a` (and `setattr` on an instance `__dict__`): an existing key is
updated in place, a new key is appended at the end. -/
def setA {α : Type} : List (String × α) → String → α → List (String × α)
  | [], key, a => [(key, a)]
  | (k, b) :: rest, key, a =>
      if k = key then (k, a) :: rest else (k, b) :: setA rest key a

/-- The keys of an association list, in insertion order. -/
def keysA {α : Type} (l : List (String × α)) : List String :=
  l.map Prod.fst

/-- The whitespace characters of Python 2 `str.strip()` /
`int()` / `float()` stripping (`string.whitespace`). -/
def isPyWS (c : Char) : Bool :=
  c = ' ' || c = '\t' || c = '\n' || c = '\x0d' || c = '\x0b' || c = '\x0c'

/-- Python `str.strip()`: drop leading and trailing whitespace. -/
def pyStrip (s : String) : String :=
  String.mk (((s.data.dropWhile isPyWS).reverse.dropWhile isPyWS).reverse)

/-- Python `str.lower()` on one ASCII character. -/
def pyLowerChar (c : Char) : Char :=
  if 'A' ≤ c && c ≤ 'Z' then Char.ofNat (c.toNat + 32) else c

/-- Python `str.lower()`. -/
def pyLower (s : String) : String :=
  String.mk (s.data.map pyLowerChar)

/-- ASCII decimal digit test. -/
def isDig (c : Char) : Bool := '0' ≤ c && c ≤ '9'

/-- Numeric value of an ASCII digit. -/
def digVal (c : Char) : Nat := c.toNat - '0'.toNat

/-- Value of a nonempty all-digit character list, else `none`. -/
def digitsVal (l : List Char) : Option Nat :=
  if l ≠ [] ∧ l.all isDig then
    some (l.foldl (fun a c => a * 10 + digVal c) 0)
  else none

/-- Drop one leading sign character, if present. -/
def dropSign : List Char → List Char
  | '+' :: rest => rest
  | '-' :: rest => rest
  | l => l

/-- Python 2 `int(string)`: surrounding whitespace is stripped, then an
optional sign followed by a nonempty run of decimal digits.  Anything
else raises `ValueError` (modelled by `none`). -/
def pyInt (s : String) : Option Int :=
  match (pyStrip s).data with
  | '+' :: rest => (digitsVal rest).map Int.ofNat
  | '-' :: rest => (digitsVal rest).map (fun n => -(n : Int))
  | l => (digitsVal l).map Int.ofNat

/-- Case-insensitive keyword test for a whole character list. -/
def lcIs (l : List Char) (w : String) : Bool :=
  l.map pyLowerChar == w.data

/-- Acceptance of an optional exponent part at the end of a `float()`
literal: either nothing, or `e`/`E`, an optional sign and a nonempty
digit run consuming the rest. -/
def expOk : List Char → Bool
  | [] => true
  | c :: rest =>
      (c = 'e' || c = 'E') &&
        (let r := dropSign rest
         r ≠ [] && r.all isDig)

/-- Acceptance of an unsigned `float()` mantissa with optional exponent:
`digits [. digits] [exp]` or `. digits [exp]`, at least one mantissa
digit required. -/
def mantissaExp (l : List Char) : Bool :=
  let ds := l.takeWhile isDig
  let r1 := l.dropWhile isDig
  match r1 with
  | '.' :: r2 =>
      let ds2 := r2.takeWhile isDig
      let r3 := r2.dropWhile isDig
      (ds ≠ [] || ds2 ≠ []) && expOk r3
  | r1 => ds ≠ [] && expOk r1

/-- Acceptance grammar of Python 2 `float(string)`: surrounding
whitespace stripped, an optional sign, then `inf`, `infinity`, `nan`
(case-insensitive) or a decimal mantissa with optional exponent. -/
def pyFloatAccepts (s : String) : Bool :=
  let l := dropSign (pyStrip s).data
  lcIs l "inf" || lcIs l "infinity" || lcIs l "nan" || mantissaExp l

/-- If the lowercased list starts with the given keyword, return the
remainder (used for `strtod`'s case-insensitive `inf`/`nan` forms). -/
def lcStarts (w : List Char) (l : List Char) : Option (List Char) :=
  match w, l with
  | [], l => some l
  | _ :: _, [] => none
  | wc :: ws, c :: cs => if pyLowerChar c = wc then lcStarts ws cs else none

/-- Consume a trailing exponent if one validly starts here (maximal
munch, as `strtod` does); otherwise leave the input unchanged. -/
def consumeExp (l : List Char) : List Char :=
  match l with
  | c :: rest =>
      if c = 'e' || c = 'E' then
        let r := dropSign rest
        if r.takeWhile isDig ≠ [] then r.dropWhile isDig else l
      else l
  | [] => l

/-- Consume one unsigned float token (`strtod` body): `infinity`, `inf`,
`nan` (case-insensitive, longest match first) or a decimal mantissa with
optional exponent; returns the remainder, or `none` if no float token
starts here. -/
def consumeUFloat (l : List Char) : Option (List Char) :=
  match lcStarts "infinity".data l with
  | some r => some r
  | none =>
    match lcStarts "inf".data l with
    | some r => some r
    | none =>
      match lcStarts "nan".data l with
      | some r => some r
      | none =>
        let ds := l.takeWhile isDig
        let r1 := l.dropWhile isDig
        match r1 with
        | '.' :: r2 =>
            let ds2 := r2.takeWhile isDig
            let r3 := r2.dropWhile isDig
            if ds ≠ [] || ds2 ≠ [] then some (consumeExp r3) else none
        | _ => if ds ≠ [] then some (consumeExp r1) else none

/-- Consume one optionally-signed float token. -/
def consumeSFloat (l : List Char) : Option (List Char) :=
  match l with
  | '+' :: rest => consumeUFloat rest
  | '-' :: rest => consumeUFloat rest
  | l => consumeUFloat l

/-- The core of CPython's `complex(string)` parser, after surrounding
whitespace and an optional opening parenthesis: accepts
`<float>`, `<float>j`, `<float><signed-float>j`, `<float><sign>j`,
`<sign>j` and `j`, returning the unconsumed remainder. -/
def complexCoreRem (l : List Char) : Option (List Char) :=
  match consumeSFloat l with
  | some rest =>
      match rest with
      | 'j' :: r => some r
      | 'J' :: r => some r
      | c :: r2 =>
          if c = '+' || c = '-' then
            match consumeUFloat r2 with
            | some ('j' :: r3) => some r3
            | some ('J' :: r3) => some r3
            | some _ => none
            | none =>
                match r2 with
                | 'j' :: r3 => some r3
                | 'J' :: r3 => some r3
                | _ => none
          else some rest
      | [] => some []
  | none =>
      match dropSign l with
      | 'j' :: r => some r
      | 'J' :: r => some r
      | _ => none

/-- After the core literal: optional whitespace, the closing parenthesis
when one was opened, optional whitespace, then end of input. -/
def complexAfterCore (br : Bool) (rest : List Char) : Bool :=
  let r := rest.dropWhile isPyWS
  if br then
    match r with
    | ')' :: r2 => r2.dropWhile isPyWS == []
    | _ => false
  else r == []

/-- Acceptance grammar of Python `complex(string)`: optional surrounding
whitespace and parentheses around the core literal. -/
def pyComplexAccepts (s : String) : Bool :=
  let l := s.data.dropWhile isPyWS
  match l with
  | '(' :: rest =>
      match complexCoreRem (rest.dropWhile isPyWS) with
      | some rem => complexAfterCore true rem
      | none => false
  | l =>
      match complexCoreRem l with
      | some rem => complexAfterCore false rem
      | none => false

/-- `v.text.replace('i', 'j')` as performed by `Complex._convert`
(the pattern is a single character, so the replacement is per-character). -/
def pyReplaceIJ (s : String) : String :=
  String.mk (s.data.map (fun c => if c = 'i' then 'j' else c))

/-- An XML element: tag, attribute map, optional text, ordered children
(the minimal node contract the engine consumes). -/
inductive XNode where
  | mk (tag : String) (attrib : List (String × String))
       (text : Option String) (children : List XNode)

/-- Tag name of a node. -/
def XNode.tag : XNode → String
  | .mk t _ _ _ => t

/-- Attribute map of a node. -/
def XNode.attrib : XNode → List (String × String)
  | .mk _ a _ _ => a

/-- Text content of a node (`None` when absent). -/
def XNode.text : XNode → Option String
  | .mk _ _ tx _ => tx

/-- Ordered children of a node (`for node in v` iterates these). -/
def XNode.children : XNode → List XNode
  | .mk _ _ _ cs => cs

/-- Python values produced by conversion.  `vNone` is Python `None` (the
absence value); `vFloat`/`vComplex` record the accepted literal text,
the numeric value itself being outside the embedding (floating point). -/
inductive Val where
  | vNone
  | vInt (n : Int)
  | vBool (b : Bool)
  | vStr (s : String)
  | vFloat (lit : String)
  | vComplex (lit : String)
  | vList (l : List Val)
  | vDict (d : List (String × Val))
  | vObj (d : List (String × Val))
  | vNode (n : XNode)

/-- Python exceptions the engine can raise: `ValueError` from a failed
numeric parse (carrying the scalar kind and offending text), `TypeError`
from passing `None` to `int()`/`float()`/`complex()`, and
`AttributeError` from calling a string method on `None`. -/
inductive PErr where
  | valueError (kind lit : String)
  | typeError (kind : String)
  | attrError (kind : String)
deriving DecidableEq

/-- `Int._convert`: absent text with the none-policy yields `None`;
absent text without it is `int(None)`, a `TypeError`; present text is
parsed by `int()`. -/
def intDo (np : Bool) (t : Option String) : Except PErr Val :=
  match t with
  | none => if np then .ok .vNone else .error (.typeError "int")
  | some s =>
      match pyInt s with
      | some n => .ok (.vInt n)
      | none => .error (.valueError "int" s)

/-- `Float._convert`, at the acceptance-grammar level. -/
def floatDo (np : Bool) (t : Option String) : Except PErr Val :=
  match t with
  | none => if np then .ok .vNone else .error (.typeError "float")
  | some s =>
      if pyFloatAccepts s then .ok (.vFloat s)
      else .error (.valueError "float" s)

/-- `Complex._convert`: all `i` are replaced with `j` before parsing
(acceptance-grammar level); absent text without the none-policy is
`None.replace`, an `AttributeError`. -/
def cplxDo (np : Bool) (t : Option String) : Except PErr Val :=
  match t with
  | none => if np then .ok .vNone else .error (.attrError "complex")
  | some s =>
      let s2 := pyReplaceIJ s
      if pyComplexAccepts s2 then .ok (.vComplex s2)
      else .error (.valueError "complex" s2)

/-- `Str._convert` (text modelled as Python 2 `str`, so the
`isinstance(v.text, str)` branch applies; absent text without the
none-policy is `None.encode`, an `AttributeError`). -/
def strDo (strip np : Bool) (t : Option String) : Except PErr Val :=
  match t with
  | none => if np then .ok .vNone else .error (.attrError "str")
  | some s => .ok (.vStr (if strip then pyStrip s else s))

/-- `Unicode._convert` (`unicode(None)` is the string `"None"`, which is
unchanged by `strip()`). -/
def uniDo (strip np : Bool) (t : Option String) : Except PErr Val :=
  match t with
  | none => if np then .ok .vNone else .ok (.vStr "None")
  | some s => .ok (.vStr (if strip then pyStrip s else s))

/-- The true-strings of `Bool._convert`. -/
def trueWords : List String := ["true", "t", "1", "yes", "y"]

/-- `Bool._convert`: absent text without the none-policy is
`None.strip()`, an `AttributeError`; otherwise the stripped, lowercased
text is compared with `trueWords`; no other outcome exists. -/
def boolDo (np : Bool) (t : Option String) : Except PErr Val :=
  match t with
  | none => if np then .ok .vNone else .error (.attrError "bool")
  | some s =>
      if pyLower (pyStrip s) ∈ trueWords then .ok (.vBool true)
      else .ok (.vBool false)

/-- `Attribute._convert`: `v.attrib.get(self._name)` (a `None` name is
never a key of the attribute map), the none-policy turning an absent
attribute into `None`; the default converter `str` maps a present value
to itself and the absent marker to the string `"None"`. -/
def attrDo (name : Option String) (np : Bool) (v : XNode) : Val :=
  match name.bind (lookupA v.attrib) with
  | some s => .vStr s
  | none => if np then .vNone else .vStr "None"

/-- `AttributeOf._convert`: identical logic with the attribute name
taken from the construction-time `attr` argument. -/
def attrOfDo (a : String) (np : Bool) (v : XNode) : Val :=
  match lookupA v.attrib a with
  | some s => .vStr s
  | none => if np then .vNone else .vStr "None"

/-- Schema nodes (`Type` subclasses of the source).  Every variant
carries the `_name` override of `Type.__init__` where the source reads
it; leaf and attribute variants carry their `_none` policy.  `obj`
carries the text converter and overwrite flag of `Object.__init__`,
its fields listed in `dir()` enumeration order. -/
inductive Schema where
  | obj (fields : List (String × Schema)) (txt : Option (String → Val))
        (overwrite : Bool) (name : Option String)
  | list (el : Schema) (tag : Option String) (name : Option String)
  | many (el : Schema) (name : Option String)
  | dict (el : Schema) (overwrite : Bool) (name : Option String)
  | attr (name : Option String) (np : Bool)
  | attrOf (a : String) (name : Option String) (np : Bool)
  | int (name : Option String) (np : Bool)
  | float (name : Option String) (np : Bool)
  | cplx (name : Option String) (np : Bool)
  | str (strip : Bool) (name : Option String) (np : Bool)
  | unicode (strip : Bool) (name : Option String) (np : Bool)
  | bool (name : Option String) (np : Bool)
  | node (name : Option String)
  | value (w : Val) (name : Option String)

/-- The stored `_name` of a schema node. -/
def schemaName : Schema → Option String
  | .obj _ _ _ nm => nm
  | .list _ _ nm => nm
  | .many _ nm => nm
  | .dict _ _ nm => nm
  | .attr nm _ => nm
  | .attrOf _ nm _ => nm
  | .int nm _ => nm
  | .float nm _ => nm
  | .cplx nm _ => nm
  | .str _ nm _ => nm
  | .unicode _ nm _ => nm
  | .bool nm _ => nm
  | .node nm => nm
  | .value _ nm => nm

/-- The binding class of one `Object` field, as decided by the
`isinstance` dispatch of `Object._convert`: an `Attribute` field, a
`Many` field (each converted against the current node), or a deferred
field with its match name and converter, registered for the child scan. -/
inductive FAction where
  | attrAct (name : Option String) (np : Bool)
  | manyAct (name : Option String) (conv : XNode → Except PErr Val)
  | deferAct (mname : Option String) (conv : XNode → Except PErr Val)

/-- The test `key[0] == '_'` of `Object._convert` (on a nonempty name). -/
def startsUnd (key : String) : Bool :=
  match key.data with
  | '_' :: _ => true
  | _ => false

/-- Non-underscore attributes that exist on every `Object._Object`
instance (its methods), which `hasattr` sees even before any `setattr`. -/
def objMethodNames : List String :=
  ["get", "has_key", "items", "iteritems", "iterkeys", "itervalues",
   "keys", "values", "viewkeys", "viewvalues"]

/-- `hasattr(obj, key)` on the default output aggregate: a set instance
attribute or one of the `_Object` methods. -/
def hasattrObj (obj : List (String × Val)) (key : String) : Bool :=
  key ∈ objMethodNames || (lookupA obj key).isSome

/-- The child-collection loop of `List._convert`:
`if self._tag is None or self._tag == node.tag: l.append(self._type(node))`. -/
def loopConvL (f : XNode → Except PErr Val) (tag : Option String) :
    List XNode → Except PErr (List Val)
  | [] => .ok []
  | c :: cs =>
      if tag = none ∨ tag = some c.tag then
        match f c with
        | .error e => .error e
        | .ok w =>
            match loopConvL f tag cs with
            | .error e => .error e
            | .ok l => .ok (w :: l)
      else loopConvL f tag cs

/-- The child-collection loop of `Many._convert`:
`if self._name is None or node.tag == self._name: l.append(self._type(node))`. -/
def loopConvM (f : XNode → Except PErr Val) (name : Option String) :
    List XNode → Except PErr (List Val)
  | [] => .ok []
  | c :: cs =>
      if name = none ∨ some c.tag = name then
        match f c with
        | .error e => .error e
        | .ok w =>
            match loopConvM f name cs with
            | .error e => .error e
            | .ok l => .ok (w :: l)
      else loopConvM f name cs

/-- The child loop of `Dict._convert`: a child is converted and stored
only when overwrite is on or its tag is not yet a key. -/
def dictLoop (f : XNode → Except PErr Val) (ow : Bool) :
    List XNode → List (String × Val) → Except PErr (List (String × Val))
  | [], d => .ok d
  | c :: cs, d =>
      if ow || (lookupA d c.tag).isNone then
        match f c with
        | .error e => .error e
        | .ok w => dictLoop f ow cs (setA d c.tag w)
      else dictLoop f ow cs d

/-- The field-enumeration loop of `Object._convert`: every nonempty,
non-underscore field whose guard `self._overwrite or not hasattr(obj,
key)` holds is dispatched on its binding class — an `Attribute` field
has its name defaulted to the field name and is converted against the
current node, a `Many` field is converted against the current node, and
every other field is registered in the pending match table under its
resolved match name (Python dictionary assignment, so a later
registration with the same match name replaces an earlier one). -/
def fieldLoop (ow : Bool) (v : XNode) :
    List (String × FAction) → List (String × Val) →
    List (String × (String × (XNode → Except PErr Val))) →
    Except PErr
      (List (String × Val) × List (String × (String × (XNode → Except PErr Val))))
  | [], obj, m => .ok (obj, m)
  | (key, a) :: rest, obj, m =>
      if key ≠ "" ∧ startsUnd key = false ∧ (ow || !hasattrObj obj key) then
        match a with
        | .attrAct name np =>
            fieldLoop ow v rest (setA obj key (attrDo (some (name.getD key)) np v)) m
        | .manyAct nm conv =>
            match loopConvM conv nm v.children with
            | .error e => .error e
            | .ok l => fieldLoop ow v rest (setA obj key (.vList l)) m
        | .deferAct mn conv =>
            fieldLoop ow v rest obj (setA m (mn.getD key) (key, conv))
      else fieldLoop ow v rest obj m

/-- The child scan of `Object._convert`: each child whose tag is in the
match table is converted and stored under the registered output key —
unconditionally, so a later matching child replaces an earlier value. -/
def scanChildren (m : List (String × (String × (XNode → Except PErr Val)))) :
    List XNode → List (String × Val) → Except PErr (List (String × Val))
  | [], obj => .ok obj
  | c :: cs, obj =>
      match lookupA m c.tag with
      | none => scanChildren m cs obj
      | some (key, f) =>
          match f c with
          | .error e => .error e
          | .ok w => scanChildren m cs (setA obj key w)

/-- The text phase of `Object._convert`: when a text converter is
configured, `obj._text` is set to the converted text, or to `None` when
the node has no text. -/
def textPhase (txt : Option (String → Val)) (v : XNode)
    (obj : List (String × Val)) : List (String × Val) :=
  match txt with
  | none => obj
  | some f =>
      setA obj "_text" (match v.text with | some t => f t | none => .vNone)

/-- `Object._convert` assembled from its three phases. -/
def objRun (acts : List (String × FAction)) (txt : Option (String → Val))
    (ow : Bool) (v : XNode) : Except PErr Val :=
  match fieldLoop ow v acts [] [] with
  | .error e => .error e
  | .ok (obj, m) =>
      match scanChildren m v.children obj with
      | .error e => .error e
      | .ok obj2 => .ok (.vObj (textPhase txt v obj2))

mutual
/-- The conversion engine: `Type.__call__` / the `_convert` methods of
each schema variant, dispatched on the schema. -/
def convert : Schema → XNode → Except PErr Val
  | .obj fields txt ow _, v => objRun (fieldActions fields) txt ow v
  | .list el tag _, v =>
      match loopConvL (fun c => convert el c) tag v.children with
      | .error e => .error e
      | .ok l => .ok (.vList l)
  | .many el nm, v =>
      match loopConvM (fun c => convert el c) nm v.children with
      | .error e => .error e
      | .ok l => .ok (.vList l)
  | .dict el ow _, v =>
      match dictLoop (fun c => convert el c) ow v.children [] with
      | .error e => .error e
      | .ok d => .ok (.vDict d)
  | .attr nm np, v => .ok (attrDo nm np v)
  | .attrOf a _ np, v => .ok (attrOfDo a np v)
  | .int _ np, v => intDo np v.text
  | .float _ np, v => floatDo np v.text
  | .cplx _ np, v => cplxDo np v.text
  | .str st _ np, v => strDo st np v.text
  | .unicode st _ np, v => uniDo st np v.text
  | .bool _ np, v => boolDo np v.text
  | .node _, v => .ok (.vNode v)
  | .value w _, _ => .ok w

/-- The `isinstance` dispatch of `Object._convert`, computed per field:
`Attribute` and `Many` fields become immediate-bind actions, everything
else a deferred action keyed by its resolved match name. -/
def fieldActions : List (String × Schema) → List (String × FAction)
  | [] => []
  | (k, s) :: rest =>
      (k, match s with
          | .attr name np => FAction.attrAct name np
          | .many el nm => FAction.manyAct nm (fun c => convert el c)
          | s' => FAction.deferAct (schemaName s') (fun c => convert s' c)) ::
        fieldActions rest
end

/-- The field-enumeration loop of `Object._convert` again, this time
also recording the only mutation the source performs: `val._name = key`
on an `Attribute` field whose name is unset.  The second component is
the schema's field list after the loop; a raised error aborts the loop,
leaving the remaining fields untouched, exactly as a Python exception
would. -/
def fieldLoopSt (ow : Bool) (v : XNode) :
    List (String × Schema) → List (String × Val) →
    List (String × (String × Schema)) →
    (Except PErr
       (List (String × Val) × List (String × (String × Schema)))) ×
      List (String × Schema)
  | [], obj, m => (.ok (obj, m), [])
  | (key, s) :: rest, obj, m =>
      if key ≠ "" ∧ startsUnd key = false ∧ (ow || !hasattrObj obj key) then
        match s with
        | .attr name np =>
            let res := fieldLoopSt ow v rest
              (setA obj key (attrDo (some (name.getD key)) np v)) m
            (res.1, (key, .attr (some (name.getD key)) np) :: res.2)
        | .many el nm =>
            match loopConvM (fun c => convert el c) nm v.children with
            | .error e => (.error e, (key, .many el nm) :: rest)
            | .ok l =>
                let res := fieldLoopSt ow v rest (setA obj key (.vList l)) m
                (res.1, (key, .many el nm) :: res.2)
        | s =>
            let res := fieldLoopSt ow v rest obj
              (setA m ((schemaName s).getD key) (key, s))
            (res.1, (key, s) :: res.2)
      else
        let res := fieldLoopSt ow v rest obj m
        (res.1, (key, s) :: res.2)

/-- The child scan of `Object._convert`, over a match table that stores
the registered schema nodes themselves. -/
def scanChildrenS (m : List (String × (String × Schema))) :
    List XNode → List (String × Val) → Except PErr (List (String × Val))
  | [], obj => .ok obj
  | c :: cs, obj =>
      match lookupA m c.tag with
      | none => scanChildrenS m cs obj
      | some (key, s) =>
          match convert s c with
          | .error e => .error e
          | .ok w => scanChildrenS m cs (setA obj key w)

/-- `Object._convert` as a state-passing function: the first component
is the conversion outcome, the second the schema's field list after the
conversion (reflecting the lazy `Attribute` name default-fill, the only
mutation the source performs on a schema). -/
def objConvertSt (ow : Bool) (txt : Option (String → Val))
    (fields : List (String × Schema)) (v : XNode) :
    Except PErr Val × List (String × Schema) :=
  match fieldLoopSt ow v fields [] [] with
  | (.error e, f2) => (.error e, f2)
  | (.ok (obj, m), f2) =>
      match scanChildrenS m v.children obj with
      | .error e => (.error e, f2)
      | .ok obj2 => (.ok (.vObj (textPhase txt v obj2)), f2)

/-- Children filtered to the first occurrence of each tag (the ones
`Dict._convert` actually converts when overwrite is disabled). -/
def dedupTags (seen : List String) : List XNode → List XNode
  | [] => []
  | c :: cs =>
      if c.tag ∈ seen then dedupTags seen cs
      else c :: dedupTags (c.tag :: seen) cs

/-- A node with only the first child of each tag kept. -/
def keepFirstPerTag (v : XNode) : XNode :=
  .mk v.tag v.attrib v.text (dedupTags [] v.children)

/-- The last child with the given tag, if any. -/
def lastTag (t : String) : List XNode → Option XNode
  | [] => none
  | c :: cs =>
      match lastTag t cs with
      | some r => some r
      | none => if c.tag = t then some c else none

/-- Sequential conversion of a list of nodes with one element schema,
the first error winning.  Modelled from the spec's words for the
Many-versus-List equivalence claim: "the ordered list of T-conversions
of exactly those children of N whose tag equals X". -/
def seqConv (el : Schema) : List XNode → Except PErr (List Val)
  | [] => .ok []
  | c :: cs =>
      match convert el c with
      | .error e => .error e
      | .ok w =>
          match seqConv el cs with
          | .error e => .error e
          | .ok l => .ok (w :: l)

/-- The root node of the end-to-end doctest:
`<foo bar="baz"><a/><b><s>qwe</s><s>asd</s></b><c x="y"/><c x="z"/><c/><i>200</i></foo>`. -/
def fooNode : XNode := .mk "foo" [("bar", "baz")] none
  [ .mk "a" [] none [],
    .mk "b" [] none [ .mk "s" [] (some "qwe") [], .mk "s" [] (some "asd") [] ],
    .mk "c" [("x", "y")] none [],
    .mk "c" [("x", "z")] none [],
    .mk "c" [] none [],
    .mk "i" [] (some "200") [] ]

/-- The `MyObject` schema of the end-to-end doctest, fields in `dir()`
order: `b = List(Str())`, `bar = Attribute()`,
`c = Many(AttributeOf('x'), name='c')`, `num = Int(name='i')`. -/
def fooSchema : Schema := .obj
  [ ("b", .list (.str false none true) none none),
    ("bar", .attr none true),
    ("c", .many (.attrOf "x" none true) (some "c")),
    ("num", .int (some "i") true) ] none false none

/-- The node `<x><a>12</a><b>34</b><c>56</c><a>78</a></x>` of the Dict
doctest. -/
def dictNode : XNode := .mk "x" [] none
  [ .mk "a" [] (some "12") [], .mk "b" [] (some "34") [],
    .mk "c" [] (some "56") [], .mk "a" [] (some "78") [] ]

/-- A node with two children matching the same registered field:
`<foo><i>1</i><i>2</i></foo>`. -/
def dupNode : XNode := .mk "foo" [] none
  [ .mk "i" [] (some "1") [], .mk "i" [] (some "2") [] ]

/-- An `Object` schema with the single deferred field `num = Int(name='i')`. -/
def dupSchema (ow : Bool) : Schema :=
  .obj [("num", .int (some "i") true)] none ow none

/-! ## Association-list lemmas -/

theorem keysA_nil {α : Type} : keysA ([] : List (String × α)) = [] := rfl

theorem keysA_cons {α : Type} (k : String) (a : α) (d : List (String × α)) :
    keysA ((k, a) :: d) = k :: keysA d := rfl

theorem lookupA_eq_none {α : Type} (d : List (String × α)) (t : String) :
    lookupA d t = none ↔ t ∉ keysA d := by
  induction d with
  | nil => simp [lookupA, keysA_nil]
  | cons p d ih =>
    obtain ⟨k, a⟩ := p
    rw [keysA_cons]
    by_cases h : k = t
    · subst h
      simp [lookupA]
    · simp only [lookupA, if_neg h, List.mem_cons, ih]
      constructor
      · rintro hn (he | hm)
        · exact h he.symm
        · exact hn hm
      · intro hn hm
        exact hn (Or.inr hm)

theorem mem_keysA_iff {α : Type} (d : List (String × α)) (t : String) :
    t ∈ keysA d ↔ lookupA d t ≠ none := by
  constructor
  · intro h hn
    exact (lookupA_eq_none d t).1 hn h
  · intro h
    by_contra hm
    exact h ((lookupA_eq_none d t).2 hm)

theorem lookupA_setA_self {α : Type} (d : List (String × α)) (k : String) (a : α) :
    lookupA (setA d k a) k = some a := by
  induction d with
  | nil => simp [setA, lookupA]
  | cons p d ih =>
    obtain ⟨k0, a0⟩ := p
    by_cases h : k0 = k <;> simp [setA, lookupA, h, ih]

theorem lookupA_setA_ne {α : Type} (d : List (String × α)) (k t : String) (a : α)
    (h : k ≠ t) : lookupA (setA d k a) t = lookupA d t := by
  induction d with
  | nil => simp [setA, lookupA, h]
  | cons p d ih =>
    obtain ⟨k0, a0⟩ := p
    by_cases h0 : k0 = k
    · subst h0
      simp [setA, lookupA, h]
    · simp [setA, lookupA, h0]
      by_cases h1 : k0 = t <;> simp [h1, ih]

theorem mem_keysA_setA {α : Type} (d : List (String × α)) (k t : String) (a : α) :
    t ∈ keysA (setA d k a) ↔ t = k ∨ t ∈ keysA d := by
  by_cases h : t = k
  · subst h
    constructor
    · intro _
      exact Or.inl rfl
    · intro _
      rw [mem_keysA_iff, lookupA_setA_self]
      simp
  · rw [mem_keysA_iff, lookupA_setA_ne d k t a (fun hh => h hh.symm), ← mem_keysA_iff]
    simp [h]

theorem mem_setA {α : Type} (d : List (String × α)) (k : String) (a : α)
    (e : String × α) : e ∈ setA d k a → e ∈ d ∨ e = (k, a) := by
  induction d with
  | nil =>
    intro h
    simp [setA] at h
    simp [h]
  | cons p d ih =>
    obtain ⟨k0, a0⟩ := p
    intro h
    by_cases h0 : k0 = k
    · subst h0
      simp [setA] at h
      rcases h with h | h
      · exact Or.inr (by simp [h])
      · exact Or.inl (List.mem_cons_of_mem _ h)
    · simp only [setA, if_neg h0, List.mem_cons] at h
      rcases h with h | h
      · exact Or.inl (by simp [h])
      · rcases ih h with h | h
        · exact Or.inl (List.mem_cons_of_mem _ h)
        · exact Or.inr h

theorem lookupA_mem {α : Type} (d : List (String × α)) (t : String) (a : α)
    (h : lookupA d t = some a) : (t, a) ∈ d := by
  induction d with
  | nil => simp [lookupA] at h
  | cons p d ih =>
    obtain ⟨k0, a0⟩ := p
    by_cases h0 : k0 = t
    · subst h0
      simp [lookupA] at h
      simp [h]
    · simp [lookupA, h0] at h
      exact List.mem_cons_of_mem _ (ih h)

/-! ## Claim theorems -/

/-- C1 (evaluation at the failing input): converting
`<foo><i>1</i><i>2</i></foo>` with an `Object` schema binding `num` to
`Int(name='i')` stores the LAST matching child's value (2) even with
overwrite disabled — the child scan of `Object._convert` assigns
unconditionally — contradicting the claim (and the constructor's own
docstring), which promise the FIRST child's value (1) in that case.
With overwrite enabled the result is likewise the last child's value,
as the claim states.  The third conjunct records that the first child
converts to 1, so the kept value is not the first child's. -/
theorem C1_duplicate_child_eval :
    convert (dupSchema false) dupNode = .ok (.vObj [("num", .vInt 2)]) ∧
    convert (dupSchema true) dupNode = .ok (.vObj [("num", .vInt 2)]) ∧
    convert (.int (some "i") true) (.mk "i" [] (some "1") []) = .ok (.vInt 1) :=
  ⟨rfl, rfl, rfl⟩

/-- C2: the end-to-end doctest scenario — converting `fooNode` with
`fooSchema` yields exactly the aggregate
`{bar: "baz", b: ["qwe","asd"], c: ["y","z",None], num: 200}`
(keys shown in the insertion order the engine produces). -/
theorem C2_end_to_end :
    convert fooSchema fooNode = .ok (.vObj
      [("bar", .vStr "baz"),
       ("c", .vList [.vStr "y", .vStr "z", .vNone]),
       ("b", .vList [.vStr "qwe", .vStr "asd"]),
       ("num", .vInt 200)]) := rfl

/-- C4: for every scalar leaf schema (Int, Float, Complex, Str, Unicode,
Bool) with the none-policy enabled, converting a node whose text is
absent yields the absence value `None` — never an error and never a
parsed value, so the underlying parser is not consulted. -/
theorem C4_leaf_none_policy (nm : Option String) (strip : Bool) (tg : String)
    (ats : List (String × String)) (cs : List XNode) :
    convert (.int nm true) (.mk tg ats none cs) = .ok .vNone ∧
    convert (.float nm true) (.mk tg ats none cs) = .ok .vNone ∧
    convert (.cplx nm true) (.mk tg ats none cs) = .ok .vNone ∧
    convert (.str strip nm true) (.mk tg ats none cs) = .ok .vNone ∧
    convert (.unicode strip nm true) (.mk tg ats none cs) = .ok .vNone ∧
    convert (.bool nm true) (.mk tg ats none cs) = .ok .vNone :=
  ⟨rfl, rfl, rfl, rfl, rfl, rfl⟩

/-- C6: on present text, Bool conversion always succeeds and returns
true exactly when the stripped, lowercased text is one of
`true`, `t`, `1`, `yes`, `y`; in particular `"  TRUE  "` gives true and
`"maybe"` gives false, with no error possible. -/
theorem C6_bool_parse :
    (∀ (nm : Option String) (np : Bool) (tg : String)
        (ats : List (String × String)) (cs : List XNode) (t : String),
        convert (.bool nm np) (.mk tg ats (some t) cs) =
          .ok (.vBool (decide (pyLower (pyStrip t) ∈ trueWords)))) ∧
    convert (.bool none true) (.mk "a" [] (some "  TRUE  ") []) = .ok (.vBool true) ∧
    convert (.bool none true) (.mk "a" [] (some "maybe") []) = .ok (.vBool false) := by
  refine ⟨?_, rfl, rfl⟩
  intro nm np tg ats cs t
  show boolDo np (some t) = _
  unfold boolDo
  by_cases h : pyLower (pyStrip t) ∈ trueWords <;> simp [h]

/-- C9: an `Attribute` or `AttributeOf` extractor with the none-policy
disabled and the default `str` converter maps a missing attribute to
the literal string `"None"` (Python `str(None)`): no error, and not the
absence value. -/
theorem C9_missing_attribute_not_none :
    (∀ (nm : Option String) (v : XNode), nm.bind (lookupA v.attrib) = none →
        convert (.attr nm false) v = .ok (.vStr "None")) ∧
    (∀ (a : String) (nm : Option String) (v : XNode), lookupA v.attrib a = none →
        convert (.attrOf a nm false) v = .ok (.vStr "None")) := by
  constructor
  · intro nm v h
    simp [convert, attrDo, h]
  · intro a nm v h
    simp [convert, attrOfDo, h]

/-- Witness for C9 at concrete inputs: a node with no attributes and a
named extractor, and a node whose only attribute is a different one. -/
theorem C9_missing_attribute_not_none_witness :
    convert (.attr (some "q") false) (.mk "x" [] none []) = .ok (.vStr "None") ∧
    convert (.attrOf "q" none false) (.mk "x" [("r", "1")] none []) = .ok (.vStr "None") :=
  ⟨C9_missing_attribute_not_none.1 (some "q") (.mk "x" [] none []) rfl,
   C9_missing_attribute_not_none.2 "q" none (.mk "x" [("r", "1")] none []) rfl⟩

/-! ## Collection-loop lemmas -/

theorem dictLoop_cons (f : XNode → Except PErr Val) (ow : Bool) (c : XNode)
    (cs : List XNode) (d : List (String × Val)) :
    dictLoop f ow (c :: cs) d =
      if ow || (lookupA d c.tag).isNone then
        match f c with
        | .error e => .error e
        | .ok w => dictLoop f ow cs (setA d c.tag w)
      else dictLoop f ow cs d := rfl

theorem dedupTags_cons (seen : List String) (c : XNode) (cs : List XNode) :
    dedupTags seen (c :: cs) =
      if c.tag ∈ seen then dedupTags seen cs
      else c :: dedupTags (c.tag :: seen) cs := rfl

theorem lastTag_cons (t : String) (c : XNode) (cs : List XNode) :
    lastTag t (c :: cs) =
      match lastTag t cs with
      | some r => some r
      | none => if c.tag = t then some c else none := rfl

theorem loopConvM_eq_loopConvL (f : XNode → Except PErr Val) (X : Option String)
    (cs : List XNode) : loopConvM f X cs = loopConvL f X cs := by
  induction cs with
  | nil => rfl
  | cons c cs ih =>
    unfold loopConvM loopConvL
    by_cases h : X = none ∨ some c.tag = X
    · rw [if_pos h, if_pos (h.imp (fun x => x) Eq.symm), ih]
    · rw [if_neg h, if_neg (fun hh => h (hh.imp (fun x => x) Eq.symm)), ih]

theorem loopConvM_filter (el : Schema) (x : String) (cs : List XNode) :
    loopConvM (fun c => convert el c) (some x) cs =
      seqConv el (cs.filter (fun c => c.tag = x)) := by
  induction cs with
  | nil => rfl
  | cons c cs ih =>
    unfold loopConvM
    by_cases h : c.tag = x
    · rw [if_pos (Or.inr (by rw [h])), List.filter_cons_of_pos (by simp [h])]
      unfold seqConv
      rw [ih]
    · rw [if_neg ?_, List.filter_cons_of_neg (by simp [h]), ih]
      rintro (h1 | h1)
      · exact Option.noConfusion h1
      · exact h (Option.some.inj h1)

theorem dedupTags_congr (cs : List XNode) : ∀ (s1 s2 : List String),
    (∀ t, t ∈ s1 ↔ t ∈ s2) → dedupTags s1 cs = dedupTags s2 cs := by
  induction cs with
  | nil => intro s1 s2 _; rfl
  | cons c cs ih =>
    intro s1 s2 h
    rw [dedupTags_cons, dedupTags_cons]
    by_cases hm : c.tag ∈ s1
    · rw [if_pos hm, if_pos ((h c.tag).1 hm), ih s1 s2 h]
    · rw [if_neg hm, if_neg (fun hh => hm ((h c.tag).2 hh))]
      rw [ih (c.tag :: s1) (c.tag :: s2) (fun t => by
        simp only [List.mem_cons]
        exact or_congr Iff.rfl (h t))]

theorem dictLoop_false_dedup (f : XNode → Except PErr Val) :
    ∀ (cs : List XNode) (d : List (String × Val)),
      dictLoop f false cs d = dictLoop f false (dedupTags (keysA d) cs) d := by
  intro cs
  induction cs with
  | nil => intro d; rfl
  | cons c cs ih =>
    intro d
    rw [dictLoop_cons, dedupTags_cons]
    by_cases h : c.tag ∈ keysA d
    · have hl : (lookupA d c.tag).isNone = false := by
        rcases hx : lookupA d c.tag with _ | a
        · exact absurd ((lookupA_eq_none d c.tag).1 hx) (by simp [h])
        · rfl
      rw [if_neg (by simp [hl]), if_pos h]
      exact ih d
    · have hl : (lookupA d c.tag).isNone = true := by
        rw [Option.isNone_iff_eq_none, lookupA_eq_none]
        exact h
      rw [if_pos (by simp [hl]), if_neg h, dictLoop_cons,
        if_pos (by simp [hl])]
      cases hf : f c with
      | error e => rfl
      | ok w =>
        show dictLoop f false cs (setA d c.tag w) =
          dictLoop f false (dedupTags (c.tag :: keysA d) cs) (setA d c.tag w)
        rw [ih (setA d c.tag w),
          dedupTags_congr cs (keysA (setA d c.tag w)) (c.tag :: keysA d)
            (fun t => by rw [mem_keysA_setA, List.mem_cons])]

theorem lastTag_none (t : String) (cs : List XNode) (h : lastTag t cs = none) :
    ∀ c ∈ cs, c.tag ≠ t := by
  induction cs with
  | nil => simp
  | cons c cs ih =>
    rw [lastTag_cons] at h
    cases hl : lastTag t cs with
    | some r =>
      rw [hl] at h
      exact absurd h (by simp)
    | none =>
      rw [hl] at h
      by_cases hc : c.tag = t
      · rw [if_pos hc] at h
        exact absurd h (by simp)
      · intro c' hc'
        rcases List.mem_cons.1 hc' with he | hm
        · subst he; exact hc
        · exact ih hl c' hm

theorem dictLoop_preserve (f : XNode → Except PErr Val) (ow : Bool) :
    ∀ (cs : List XNode) (d d' : List (String × Val)) (t : String),
      dictLoop f ow cs d = .ok d' → (∀ c ∈ cs, c.tag ≠ t) →
      lookupA d' t = lookupA d t := by
  intro cs
  induction cs with
  | nil =>
    intro d d' t h _
    rw [show dictLoop f ow [] d = .ok d from rfl, Except.ok.injEq] at h
    rw [h]
  | cons c cs ih =>
    intro d d' t h hne
    rw [dictLoop_cons] at h
    by_cases hc : (ow || (lookupA d c.tag).isNone) = true
    · rw [if_pos hc] at h
      cases hf : f c with
      | error e =>
        rw [hf] at h
        exact absurd h (by simp)
      | ok w =>
        rw [hf] at h
        rw [ih (setA d c.tag w) d' t h
              (fun c' hm => hne c' (List.mem_cons_of_mem _ hm)),
            lookupA_setA_ne _ _ _ _ (hne c (List.mem_cons_self c cs))]
    · rw [if_neg hc] at h
      exact ih d d' t h (fun c' hm => hne c' (List.mem_cons_of_mem _ hm))

theorem dictLoop_true_last (f : XNode → Except PErr Val) :
    ∀ (cs : List XNode) (d d' : List (String × Val)) (t : String) (c : XNode),
      dictLoop f true cs d = .ok d' → lastTag t cs = some c →
      ∃ w, f c = .ok w ∧ lookupA d' t = some w := by
  intro cs
  induction cs with
  | nil =>
    intro d d' t c _ hl
    exact absurd hl (by simp [lastTag])
  | cons c0 cs ih =>
    intro d d' t c h hl
    rw [dictLoop_cons, if_pos (by simp)] at h
    cases hf : f c0 with
    | error e =>
      rw [hf] at h
      exact absurd h (by simp)
    | ok w0 =>
      rw [hf] at h
      rw [lastTag_cons] at hl
      cases hlt : lastTag t cs with
      | some r =>
        rw [hlt] at hl
        rw [Option.some.injEq] at hl
        exact ih _ _ _ _ h (by rw [hlt, hl])
      | none =>
        rw [hlt] at hl
        by_cases hc : c0.tag = t
        · rw [if_pos hc, Option.some.injEq] at hl
          subst hl
          refine ⟨w0, hf, ?_⟩
          have hp := dictLoop_preserve f true cs (setA d c0.tag w0) d' t h
            (lastTag_none t cs hlt)
          rw [hp, hc, lookupA_setA_self]
        · rw [if_neg hc] at hl
          exact absurd hl (by simp)

/-- C3: `Many(T, name=X)` and `List(T, tag=X)` convert any node to the
same result (their loops test the same tag condition), and for a
concrete name `x` the result is exactly the ordered sequence of
element conversions of the children whose tag equals `x`. -/
theorem C3_many_list_equiv :
    (∀ (el : Schema) (X : Option String) (v : XNode),
        convert (.many el X) v = convert (.list el X none) v) ∧
    (∀ (el : Schema) (x : String) (v : XNode),
        convert (.many el (some x)) v =
          match seqConv el (v.children.filter (fun c => c.tag = x)) with
          | .error e => .error e
          | Except.ok l => Except.ok (Val.vList l)) := by
  constructor
  · intro el X v
    show (match loopConvM (fun c => convert el c) X v.children with
          | Except.error e => Except.error e
          | Except.ok l => Except.ok (Val.vList l)) =
         (match loopConvL (fun c => convert el c) X v.children with
          | Except.error e => Except.error e
          | Except.ok l => Except.ok (Val.vList l))
    rw [loopConvM_eq_loopConvL]
  · intro el x v
    show (match loopConvM (fun c => convert el c) (some x) v.children with
          | Except.error e => Except.error e
          | Except.ok l => Except.ok (Val.vList l)) = _
    rw [loopConvM_filter]

/-- C5: the Dict doctest — children `a:12, b:34, c:56, a:78` with an
integer element schema give `{a:12, b:34, c:56}` with overwrite
disabled and `{a:78, b:34, c:56}` with it enabled — and in general,
with overwrite disabled a Dict conversion equals the conversion of the
node with only the first child of each tag kept (first-wins), while
with overwrite enabled the stored value under any tag is the conversion
of the last child with that tag (last-wins). -/
theorem C5_dict_overwrite :
    convert (.dict (.int none true) false none) dictNode =
      .ok (.vDict [("a", .vInt 12), ("b", .vInt 34), ("c", .vInt 56)]) ∧
    convert (.dict (.int none true) true none) dictNode =
      .ok (.vDict [("a", .vInt 78), ("b", .vInt 34), ("c", .vInt 56)]) ∧
    (∀ (el : Schema) (dnm : Option String) (v : XNode),
        convert (.dict el false dnm) v =
          convert (.dict el false dnm) (keepFirstPerTag v)) ∧
    (∀ (el : Schema) (dnm : Option String) (v : XNode) (d : List (String × Val))
        (t : String) (c : XNode),
        convert (.dict el true dnm) v = .ok (.vDict d) →
        lastTag t v.children = some c →
        ∃ w, convert el c = .ok w ∧ lookupA d t = some w) := by
  refine ⟨rfl, rfl, ?_, ?_⟩
  · intro el dnm v
    show (match dictLoop (fun c => convert el c) false v.children [] with
          | Except.error e => Except.error e
          | Except.ok d => Except.ok (Val.vDict d)) =
         (match dictLoop (fun c => convert el c) false
            (keepFirstPerTag v).children [] with
          | Except.error e => Except.error e
          | Except.ok d => Except.ok (Val.vDict d))
    rw [show (keepFirstPerTag v).children = dedupTags [] v.children from rfl,
      show dedupTags [] v.children =
        dedupTags (keysA ([] : List (String × Val))) v.children from rfl,
      ← dictLoop_false_dedup]
  · intro el dnm v d t c h hl
    have h2 : dictLoop (fun c => convert el c) true v.children [] = .ok d := by
      revert h
      show (match dictLoop (fun c => convert el c) true v.children [] with
            | Except.error e => Except.error e
            | Except.ok d => Except.ok (Val.vDict d)) = _ → _
      cases hd : dictLoop (fun c => convert el c) true v.children [] with
      | error e => intro h; exact absurd h (by simp)
      | ok d0 =>
        intro h
        simp only [Except.ok.injEq, Val.vDict.injEq] at h
        rw [h]
    exact dictLoop_true_last _ _ _ _ _ _ h2 hl

/-- Witness for C5's last-wins conjunct at the doctest input: the last
`a` child (text 78) converts to 78 and that is the stored value. -/
theorem C5_dict_overwrite_witness :
    ∃ w, convert (.int none true) (.mk "a" [] (some "78") []) = .ok w ∧
      lookupA [("a", Val.vInt 78), ("b", Val.vInt 34), ("c", Val.vInt 56)] "a" =
        some w :=
  C5_dict_overwrite.2.2.2 (.int none true) none dictNode
    [("a", Val.vInt 78), ("b", Val.vInt 34), ("c", Val.vInt 56)] "a"
    (.mk "a" [] (some "78") []) rfl rfl

/-! ## Error-propagation lemmas -/

theorem loopConvL_cons (f : XNode → Except PErr Val) (tag : Option String)
    (c : XNode) (cs : List XNode) :
    loopConvL f tag (c :: cs) =
      if tag = none ∨ tag = some c.tag then
        match f c with
        | .error e => .error e
        | .ok w =>
            match loopConvL f tag cs with
            | .error e => .error e
            | .ok l => .ok (w :: l)
      else loopConvL f tag cs := rfl

theorem loopConvM_cons (f : XNode → Except PErr Val) (name : Option String)
    (c : XNode) (cs : List XNode) :
    loopConvM f name (c :: cs) =
      if name = none ∨ some c.tag = name then
        match f c with
        | .error e => .error e
        | .ok w =>
            match loopConvM f name cs with
            | .error e => .error e
            | .ok l => .ok (w :: l)
      else loopConvM f name cs := rfl

theorem scanChildren_cons (m : List (String × (String × (XNode → Except PErr Val))))
    (c : XNode) (cs : List XNode) (obj : List (String × Val)) :
    scanChildren m (c :: cs) obj =
      match lookupA m c.tag with
      | none => scanChildren m cs obj
      | some (key, f) =>
          match f c with
          | .error e => .error e
          | .ok w => scanChildren m cs (setA obj key w) := rfl

theorem loopConvL_append_error (f : XNode → Except PErr Val) (tag : Option String) :
    ∀ (cs1 : List XNode) (l1 : List Val) (c : XNode) (cs2 : List XNode) (e : PErr),
      loopConvL f tag cs1 = .ok l1 →
      (tag = none ∨ tag = some c.tag) →
      f c = .error e →
      loopConvL f tag (cs1 ++ (c :: cs2)) = .error e := by
  intro cs1
  induction cs1 with
  | nil =>
    intro l1 c cs2 e _ hc hf
    rw [List.nil_append, loopConvL_cons, if_pos hc, hf]
  | cons c0 cs1 ih =>
    intro l1 c cs2 e h1 hc hf
    rw [loopConvL_cons] at h1
    rw [List.cons_append, loopConvL_cons]
    by_cases hq : tag = none ∨ tag = some c0.tag
    · rw [if_pos hq] at h1 ⊢
      cases hf0 : f c0 with
      | error e0 =>
        rw [hf0] at h1
        exact absurd h1 (by simp)
      | ok w =>
        rw [hf0] at h1
        cases hrest : loopConvL f tag cs1 with
        | error e0 =>
          rw [hrest] at h1
          exact absurd h1 (by simp)
        | ok l => rw [ih l c cs2 e hrest hc hf]
    · rw [if_neg hq] at h1 ⊢
      exact ih l1 c cs2 e h1 hc hf

theorem loopConvM_append_error (f : XNode → Except PErr Val) (name : Option String) :
    ∀ (cs1 : List XNode) (l1 : List Val) (c : XNode) (cs2 : List XNode) (e : PErr),
      loopConvM f name cs1 = .ok l1 →
      (name = none ∨ some c.tag = name) →
      f c = .error e →
      loopConvM f name (cs1 ++ (c :: cs2)) = .error e := by
  intro cs1
  induction cs1 with
  | nil =>
    intro l1 c cs2 e _ hc hf
    rw [List.nil_append, loopConvM_cons, if_pos hc, hf]
  | cons c0 cs1 ih =>
    intro l1 c cs2 e h1 hc hf
    rw [loopConvM_cons] at h1
    rw [List.cons_append, loopConvM_cons]
    by_cases hq : name = none ∨ some c0.tag = name
    · rw [if_pos hq] at h1 ⊢
      cases hf0 : f c0 with
      | error e0 =>
        rw [hf0] at h1
        exact absurd h1 (by simp)
      | ok w =>
        rw [hf0] at h1
        cases hrest : loopConvM f name cs1 with
        | error e0 =>
          rw [hrest] at h1
          exact absurd h1 (by simp)
        | ok l => rw [ih l c cs2 e hrest hc hf]
    · rw [if_neg hq] at h1 ⊢
      exact ih l1 c cs2 e h1 hc hf

theorem dictLoop_append_error (f : XNode → Except PErr Val) (ow : Bool) :
    ∀ (cs1 : List XNode) (d0 d1 : List (String × Val)) (c : XNode)
      (cs2 : List XNode) (e : PErr),
      dictLoop f ow cs1 d0 = .ok d1 →
      (ow || (lookupA d1 c.tag).isNone) = true →
      f c = .error e →
      dictLoop f ow (cs1 ++ (c :: cs2)) d0 = .error e := by
  intro cs1
  induction cs1 with
  | nil =>
    intro d0 d1 c cs2 e h1 hc hf
    rw [show dictLoop f ow [] d0 = .ok d0 from rfl, Except.ok.injEq] at h1
    subst h1
    rw [List.nil_append, dictLoop_cons, if_pos hc, hf]
  | cons c0 cs1 ih =>
    intro d0 d1 c cs2 e h1 hc hf
    rw [dictLoop_cons] at h1
    rw [List.cons_append, dictLoop_cons]
    by_cases hq : (ow || (lookupA d0 c0.tag).isNone) = true
    · rw [if_pos hq] at h1 ⊢
      cases hf0 : f c0 with
      | error e0 =>
        rw [hf0] at h1
        exact absurd h1 (by simp)
      | ok w =>
        rw [hf0] at h1
        exact ih (setA d0 c0.tag w) d1 c cs2 e h1 hc hf
    · rw [if_neg hq] at h1 ⊢
      exact ih d0 d1 c cs2 e h1 hc hf

theorem scanChildren_append_error
    (m : List (String × (String × (XNode → Except PErr Val)))) :
    ∀ (cs1 : List XNode) (obj obj1 : List (String × Val)) (c : XNode)
      (cs2 : List XNode) (e : PErr) (key : String)
      (f : XNode → Except PErr Val),
      scanChildren m cs1 obj = .ok obj1 →
      lookupA m c.tag = some (key, f) →
      f c = .error e →
      scanChildren m (cs1 ++ (c :: cs2)) obj = .error e := by
  intro cs1
  induction cs1 with
  | nil =>
    intro obj obj1 c cs2 e key f _ hm hf
    rw [List.nil_append, scanChildren_cons, hm]
    show (match f c with
          | Except.error e => Except.error e
          | Except.ok w => scanChildren m cs2 (setA obj key w)) = Except.error e
    rw [hf]
  | cons c0 cs1 ih =>
    intro obj obj1 c cs2 e key f h1 hm hf
    rw [scanChildren_cons] at h1
    rw [List.cons_append, scanChildren_cons]
    cases hm0 : lookupA m c0.tag with
    | none =>
      rw [hm0] at h1
      exact ih obj obj1 c cs2 e key f h1 hm hf
    | some p =>
      obtain ⟨key0, f0⟩ := p
      rw [hm0] at h1
      have h2 : (match f0 c0 with
                 | Except.error e => Except.error e
                 | Except.ok w => scanChildren m cs1 (setA obj key0 w)) =
          Except.ok obj1 := h1
      cases hf0 : f0 c0 with
      | error e0 =>
        rw [hf0] at h2
        exact absurd h2 (by simp)
      | ok w =>
        rw [hf0] at h2
        show (match f0 c0 with
              | Except.error e => Except.error e
              | Except.ok w => scanChildren m (cs1 ++ (c :: cs2)) (setA obj key0 w)) =
            Except.error e
        rw [hf0]
        exact ih (setA obj key0 w) obj1 c cs2 e key f h2 hm hf

/-- C7: a numeric leaf (Int, Float, Complex) whose text is present but
not a valid literal of its kind raises a `ValueError`, and an element
error raised inside a List, Many, Dict or Object conversion propagates
unchanged to the caller — once the children before the failing one have
converted successfully, the enclosing conversion's result is exactly
that error, with no partial result. -/
theorem C7_parse_error_propagation :
    (∀ (nm : Option String) (np : Bool) (tg : String)
        (ats : List (String × String)) (cs : List XNode) (t : String),
        pyInt t = none →
        convert (.int nm np) (.mk tg ats (some t) cs) =
          .error (.valueError "int" t)) ∧
    (∀ (nm : Option String) (np : Bool) (tg : String)
        (ats : List (String × String)) (cs : List XNode) (t : String),
        pyFloatAccepts t = false →
        convert (.float nm np) (.mk tg ats (some t) cs) =
          .error (.valueError "float" t)) ∧
    (∀ (nm : Option String) (np : Bool) (tg : String)
        (ats : List (String × String)) (cs : List XNode) (t : String),
        pyComplexAccepts (pyReplaceIJ t) = false →
        convert (.cplx nm np) (.mk tg ats (some t) cs) =
          .error (.valueError "complex" (pyReplaceIJ t))) ∧
    (∀ (el : Schema) (tag lnm : Option String) (tg : String)
        (ats : List (String × String)) (tx : Option String)
        (cs1 : List XNode) (c : XNode) (cs2 : List XNode) (e : PErr)
        (l1 : List Val),
        loopConvL (fun n => convert el n) tag cs1 = .ok l1 →
        (tag = none ∨ tag = some c.tag) →
        convert el c = .error e →
        convert (.list el tag lnm) (.mk tg ats tx (cs1 ++ (c :: cs2))) =
          .error e) ∧
    (∀ (el : Schema) (mnm : Option String) (tg : String)
        (ats : List (String × String)) (tx : Option String)
        (cs1 : List XNode) (c : XNode) (cs2 : List XNode) (e : PErr)
        (l1 : List Val),
        loopConvM (fun n => convert el n) mnm cs1 = .ok l1 →
        (mnm = none ∨ some c.tag = mnm) →
        convert el c = .error e →
        convert (.many el mnm) (.mk tg ats tx (cs1 ++ (c :: cs2))) =
          .error e) ∧
    (∀ (el : Schema) (ow : Bool) (dnm : Option String) (tg : String)
        (ats : List (String × String)) (tx : Option String)
        (cs1 : List XNode) (c : XNode) (cs2 : List XNode) (e : PErr)
        (d1 : List (String × Val)),
        dictLoop (fun n => convert el n) ow cs1 [] = .ok d1 →
        (ow || (lookupA d1 c.tag).isNone) = true →
        convert el c = .error e →
        convert (.dict el ow dnm) (.mk tg ats tx (cs1 ++ (c :: cs2))) =
          .error e) ∧
    (∀ (fields : List (String × Schema)) (txt : Option (String → Val))
        (ow : Bool) (onm : Option String) (tg : String)
        (ats : List (String × String)) (tx : Option String)
        (cs1 : List XNode) (c : XNode) (cs2 : List XNode) (e : PErr)
        (obj obj1 : List (String × Val))
        (m : List (String × (String × (XNode → Except PErr Val))))
        (key : String) (f : XNode → Except PErr Val),
        fieldLoop ow (.mk tg ats tx (cs1 ++ (c :: cs2)))
          (fieldActions fields) [] [] = .ok (obj, m) →
        scanChildren m cs1 obj = .ok obj1 →
        lookupA m c.tag = some (key, f) →
        f c = .error e →
        convert (.obj fields txt ow onm) (.mk tg ats tx (cs1 ++ (c :: cs2))) =
          .error e) := by
  refine ⟨?_, ?_, ?_, ?_, ?_, ?_, ?_⟩
  · intro nm np tg ats cs t h
    show intDo np (some t) = _
    simp [intDo, h]
  · intro nm np tg ats cs t h
    show floatDo np (some t) = _
    simp [floatDo, h]
  · intro nm np tg ats cs t h
    show cplxDo np (some t) = _
    simp [cplxDo, h]
  · intro el tag lnm tg ats tx cs1 c cs2 e l1 h1 hc hf
    show (match loopConvL (fun n => convert el n) tag (cs1 ++ (c :: cs2)) with
          | Except.error e => Except.error e
          | Except.ok l => Except.ok (Val.vList l)) = Except.error e
    rw [loopConvL_append_error _ _ cs1 l1 c cs2 e h1 hc hf]
  · intro el mnm tg ats tx cs1 c cs2 e l1 h1 hc hf
    show (match loopConvM (fun n => convert el n) mnm (cs1 ++ (c :: cs2)) with
          | Except.error e => Except.error e
          | Except.ok l => Except.ok (Val.vList l)) = Except.error e
    rw [loopConvM_append_error _ _ cs1 l1 c cs2 e h1 hc hf]
  · intro el ow dnm tg ats tx cs1 c cs2 e d1 h1 hc hf
    show (match dictLoop (fun n => convert el n) ow (cs1 ++ (c :: cs2)) [] with
          | Except.error e => Except.error e
          | Except.ok d => Except.ok (Val.vDict d)) = Except.error e
    rw [dictLoop_append_error _ _ cs1 [] d1 c cs2 e h1 hc hf]
  · intro fields txt ow onm tg ats tx cs1 c cs2 e obj obj1 m key f h1 h2 hm hf
    show objRun (fieldActions fields) txt ow (.mk tg ats tx (cs1 ++ (c :: cs2))) =
      Except.error e
    unfold objRun
    rw [h1]
    show (match scanChildren m (cs1 ++ (c :: cs2)) obj with
          | Except.error e => Except.error e
          | Except.ok obj2 =>
              Except.ok (Val.vObj
                (textPhase txt (.mk tg ats tx (cs1 ++ (c :: cs2))) obj2))) =
        Except.error e
    rw [scanChildren_append_error m cs1 obj obj1 c cs2 e key f h2 hm hf]

/-- Witness for C7: the text `abc` is rejected by all three numeric
parsers, and the resulting `ValueError` from a failing `<i>zz</i>` child
surfaces unchanged through List, Many, Dict and Object conversions. -/
theorem C7_parse_error_propagation_witness :
    convert (.int none true) (.mk "a" [] (some "abc") []) =
      .error (.valueError "int" "abc") ∧
    convert (.float none true) (.mk "a" [] (some "abc") []) =
      .error (.valueError "float" "abc") ∧
    convert (.cplx none true) (.mk "a" [] (some "abc") []) =
      .error (.valueError "complex" (pyReplaceIJ "abc")) ∧
    convert (.list (.int none true) none none)
      (.mk "x" [] none ([] ++ ((XNode.mk "i" [] (some "zz") []) :: []))) =
      .error (.valueError "int" "zz") ∧
    convert (.many (.int none true) (some "i"))
      (.mk "x" [] none ([] ++ ((XNode.mk "i" [] (some "zz") []) :: []))) =
      .error (.valueError "int" "zz") ∧
    convert (.dict (.int none true) false none)
      (.mk "x" [] none ([] ++ ((XNode.mk "i" [] (some "zz") []) :: []))) =
      .error (.valueError "int" "zz") ∧
    convert (.obj [("num", .int (some "i") true)] none false none)
      (.mk "foo" [] none ([] ++ ((XNode.mk "i" [] (some "zz") []) :: []))) =
      .error (.valueError "int" "zz") :=
  ⟨C7_parse_error_propagation.1 none true "a" [] [] "abc" rfl,
   C7_parse_error_propagation.2.1 none true "a" [] [] "abc" rfl,
   C7_parse_error_propagation.2.2.1 none true "a" [] [] "abc" rfl,
   C7_parse_error_propagation.2.2.2.1 (.int none true) none none "x" [] none
     [] (.mk "i" [] (some "zz") []) [] (.valueError "int" "zz") [] rfl
     (Or.inl rfl) rfl,
   C7_parse_error_propagation.2.2.2.2.1 (.int none true) (some "i") "x" [] none
     [] (.mk "i" [] (some "zz") []) [] (.valueError "int" "zz") [] rfl
     (Or.inr rfl) rfl,
   C7_parse_error_propagation.2.2.2.2.2.1 (.int none true) false none "x" []
     none [] (.mk "i" [] (some "zz") []) [] (.valueError "int" "zz") [] rfl
     rfl rfl,
   C7_parse_error_propagation.2.2.2.2.2.2 [("num", .int (some "i") true)] none
     false none "foo" [] none [] (.mk "i" [] (some "zz") []) []
     (.valueError "int" "zz") [] []
     [("i", ("num", fun n => convert (.int (some "i") true) n))] "num"
     (fun n => convert (.int (some "i") true) n) rfl rfl rfl rfl⟩

/-! ## Key-set lemmas for Object conversion -/

theorem keysA_fieldActions (fields : List (String × Schema)) :
    keysA (fieldActions fields) = keysA fields := by
  induction fields with
  | nil => rfl
  | cons p fields ih =>
    obtain ⟨k, s⟩ := p
    show k :: keysA (fieldActions fields) = k :: keysA fields
    rw [ih]

theorem fieldLoop_cons (ow : Bool) (v : XNode) (key : String) (a : FAction)
    (rest : List (String × FAction)) (obj : List (String × Val))
    (m : List (String × (String × (XNode → Except PErr Val)))) :
    fieldLoop ow v ((key, a) :: rest) obj m =
      if key ≠ "" ∧ startsUnd key = false ∧ (ow || !hasattrObj obj key) then
        match a with
        | .attrAct name np =>
            fieldLoop ow v rest
              (setA obj key (attrDo (some (name.getD key)) np v)) m
        | .manyAct nm conv =>
            match loopConvM conv nm v.children with
            | .error e => .error e
            | .ok l => fieldLoop ow v rest (setA obj key (.vList l)) m
        | .deferAct mn conv =>
            fieldLoop ow v rest obj (setA m (mn.getD key) (key, conv))
      else fieldLoop ow v rest obj m := rfl

theorem fieldLoop_keys (ow : Bool) (v : XNode) :
    ∀ (acts : List (String × FAction)) (obj : List (String × Val))
      (m : List (String × (String × (XNode → Except PErr Val))))
      (obj' : List (String × Val))
      (m' : List (String × (String × (XNode → Except PErr Val)))),
      fieldLoop ow v acts obj m = .ok (obj', m') →
      (∀ k ∈ keysA obj', k ∈ keysA obj ∨
         (k ∈ keysA acts ∧ k ≠ "" ∧ startsUnd k = false)) ∧
      (∀ (mn key : String) (f : XNode → Except PErr Val),
         (mn, (key, f)) ∈ m' → (mn, (key, f)) ∈ m ∨
           (key ∈ keysA acts ∧ key ≠ "" ∧ startsUnd key = false)) := by
  intro acts
  induction acts with
  | nil =>
    intro obj m obj' m' h
    rw [show fieldLoop ow v [] obj m = .ok (obj, m) from rfl] at h
    simp only [Except.ok.injEq, Prod.mk.injEq] at h
    obtain ⟨h1, h2⟩ := h
    subst h1; subst h2
    exact ⟨fun k hk => Or.inl hk, fun mn key f hm => Or.inl hm⟩
  | cons p rest ih =>
    obtain ⟨key0, a⟩ := p
    intro obj m obj' m' h
    rw [fieldLoop_cons] at h
    have hmono : ∀ k, k ∈ keysA rest → k ∈ keysA ((key0, a) :: rest) := by
      intro k hk
      rw [keysA_cons]
      exact List.mem_cons_of_mem _ hk
    by_cases hg : key0 ≠ "" ∧ startsUnd key0 = false ∧ (ow || !hasattrObj obj key0)
    · rw [if_pos hg] at h
      cases a with
      | attrAct name np =>
        obtain ⟨ho, hm⟩ := ih _ _ obj' m' h
        refine ⟨fun k hk => ?_, fun mn key f hmm => ?_⟩
        · rcases ho k hk with h1 | h1
          · rcases (mem_keysA_setA obj key0 k _).1 h1 with h2 | h2
            · subst h2
              exact Or.inr ⟨by rw [keysA_cons]; exact List.mem_cons_self _ _,
                hg.1, hg.2.1⟩
            · exact Or.inl h2
          · exact Or.inr ⟨hmono k h1.1, h1.2⟩
        · rcases hm mn key f hmm with h1 | h1
          · exact Or.inl h1
          · exact Or.inr ⟨hmono key h1.1, h1.2⟩
      | manyAct nm conv =>
        have h2 : (match loopConvM conv nm v.children with
                   | Except.error e => Except.error e
                   | Except.ok l =>
                       fieldLoop ow v rest (setA obj key0 (Val.vList l)) m) =
            Except.ok (obj', m') := h
        cases hl : loopConvM conv nm v.children with
        | error e =>
          rw [hl] at h2
          exact absurd h2 (by simp)
        | ok lv =>
          rw [hl] at h2
          obtain ⟨ho, hm⟩ := ih _ _ obj' m' h2
          refine ⟨fun k hk => ?_, fun mn key f hmm => ?_⟩
          · rcases ho k hk with h1 | h1
            · rcases (mem_keysA_setA obj key0 k _).1 h1 with h2 | h2
              · subst h2
                exact Or.inr ⟨by rw [keysA_cons]; exact List.mem_cons_self _ _,
                  hg.1, hg.2.1⟩
              · exact Or.inl h2
            · exact Or.inr ⟨hmono k h1.1, h1.2⟩
          · rcases hm mn key f hmm with h1 | h1
            · exact Or.inl h1
            · exact Or.inr ⟨hmono key h1.1, h1.2⟩
      | deferAct mn0 conv =>
        obtain ⟨ho, hm⟩ := ih _ _ obj' m' h
        refine ⟨fun k hk => ?_, fun mn key f hmm => ?_⟩
        · rcases ho k hk with h1 | h1
          · exact Or.inl h1
          · exact Or.inr ⟨hmono k h1.1, h1.2⟩
        · rcases hm mn key f hmm with h1 | h1
          · rcases mem_setA m (mn0.getD key0) (key0, conv) _ h1 with h2 | h2
            · exact Or.inl h2
            · have hkey : key = key0 := by
                have := congrArg (fun q => q.2.1) h2
                simpa using this
              subst hkey
              exact Or.inr ⟨by rw [keysA_cons]; exact List.mem_cons_self _ _,
                hg.1, hg.2.1⟩
          · exact Or.inr ⟨hmono key h1.1, h1.2⟩
    · rw [if_neg hg] at h
      obtain ⟨ho, hm⟩ := ih _ _ obj' m' h
      refine ⟨fun k hk => ?_, fun mn key f hmm => ?_⟩
      · rcases ho k hk with h1 | h1
        · exact Or.inl h1
        · exact Or.inr ⟨hmono k h1.1, h1.2⟩
      · rcases hm mn key f hmm with h1 | h1
        · exact Or.inl h1
        · exact Or.inr ⟨hmono key h1.1, h1.2⟩

theorem scanChildren_keys (m : List (String × (String × (XNode → Except PErr Val)))) :
    ∀ (cs : List XNode) (obj obj' : List (String × Val)),
      scanChildren m cs obj = .ok obj' →
      ∀ k ∈ keysA obj', k ∈ keysA obj ∨
        ∃ (mn : String) (f : XNode → Except PErr Val), (mn, (k, f)) ∈ m := by
  intro cs
  induction cs with
  | nil =>
    intro obj obj' h
    rw [show scanChildren m [] obj = .ok obj from rfl, Except.ok.injEq] at h
    subst h
    exact fun k hk => Or.inl hk
  | cons c cs ih =>
    intro obj obj' h
    rw [scanChildren_cons] at h
    cases hm0 : lookupA m c.tag with
    | none =>
      rw [hm0] at h
      exact ih obj obj' h
    | some p =>
      obtain ⟨key0, f0⟩ := p
      rw [hm0] at h
      have h2 : (match f0 c with
                 | Except.error e => Except.error e
                 | Except.ok w => scanChildren m cs (setA obj key0 w)) =
          Except.ok obj' := h
      cases hf0 : f0 c with
      | error e =>
        rw [hf0] at h2
        exact absurd h2 (by simp)
      | ok w =>
        rw [hf0] at h2
        intro k hk
        rcases ih (setA obj key0 w) obj' h2 k hk with h1 | h1
        · rcases (mem_keysA_setA obj key0 k w).1 h1 with h3 | h3
          · subst h3
            exact Or.inr ⟨c.tag, f0, lookupA_mem m c.tag _ hm0⟩
          · exact Or.inl h3
        · exact Or.inr h1

/-- C10: for an `Object` conversion with the default aggregate, every
key of the returned aggregate is a declared nonempty, non-underscore
field name of the schema, except for the reserved `_text` slot, which
is present exactly when a text converter was configured — so unmatched
children contribute no keys and the key set is bounded by the
declaration, whatever the input node. -/
theorem C10_object_keys (fields : List (String × Schema))
    (txt : Option (String → Val)) (ow : Bool) (onm : Option String)
    (v : XNode) (l : List (String × Val))
    (h : convert (.obj fields txt ow onm) v = .ok (.vObj l)) :
    (∀ k ∈ keysA l, (k ∈ keysA fields ∧ k ≠ "" ∧ startsUnd k = false) ∨
       (k = "_text" ∧ txt.isSome)) ∧
    ("_text" ∈ keysA l ↔ txt.isSome) := by
  have h0 : objRun (fieldActions fields) txt ow v = .ok (.vObj l) := h
  unfold objRun at h0
  cases hfl : fieldLoop ow v (fieldActions fields) [] [] with
  | error e =>
    rw [hfl] at h0
    exact absurd h0 (by simp)
  | ok p =>
    obtain ⟨obj, m⟩ := p
    rw [hfl] at h0
    have h1 : (match scanChildren m v.children obj with
               | Except.error e => Except.error e
               | Except.ok obj2 => Except.ok (Val.vObj (textPhase txt v obj2))) =
        Except.ok (Val.vObj l) := h0
    cases hsc : scanChildren m v.children obj with
    | error e =>
      rw [hsc] at h1
      exact absurd h1 (by simp)
    | ok obj2 =>
      rw [hsc] at h1
      simp only [Except.ok.injEq, Val.vObj.injEq] at h1
      have hobj2 : ∀ k ∈ keysA obj2,
          k ∈ keysA fields ∧ k ≠ "" ∧ startsUnd k = false := by
        intro k hk
        rcases scanChildren_keys m v.children obj obj2 hsc k hk with
          hk1 | ⟨mn, f, hmem⟩
        · rcases (fieldLoop_keys ow v _ [] [] obj m hfl).1 k hk1 with h2 | h2
          · exact absurd h2 (by simp [keysA_nil])
          · rwa [keysA_fieldActions] at h2
        · rcases (fieldLoop_keys ow v _ [] [] obj m hfl).2 mn k f hmem with h2 | h2
          · exact absurd h2 (by simp)
          · rwa [keysA_fieldActions] at h2
      cases txt with
      | none =>
        have hl2 : l = obj2 := by
          rw [← h1]
          rfl
        subst hl2
        refine ⟨fun k hk => Or.inl (hobj2 k hk), ?_⟩
        constructor
        · intro habs
          have := (hobj2 _ habs).2.2
          exact absurd this (by decide)
        · intro habs
          exact absurd habs (by simp)
      | some f0 =>
        have hl2 : l = setA obj2 "_text"
            (match v.text with | some t => f0 t | none => Val.vNone) := by
          rw [← h1]
          rfl
        subst hl2
        refine ⟨fun k hk => ?_, ?_⟩
        · rcases (mem_keysA_setA obj2 "_text" k _).1 hk with h2 | h2
          · exact Or.inr ⟨h2, rfl⟩
          · exact Or.inl (hobj2 k h2)
        · constructor
          · intro _
            rfl
          · intro _
            exact (mem_keysA_setA obj2 "_text" "_text" _).2 (Or.inl rfl)

/-- Witness for C10 at the end-to-end example: the produced keys
`bar`, `c`, `b`, `num` are all declared field names and `_text` is
absent since no text converter was configured. -/
theorem C10_object_keys_witness :
    (∀ k ∈ keysA [("bar", Val.vStr "baz"),
        ("c", Val.vList [Val.vStr "y", Val.vStr "z", Val.vNone]),
        ("b", Val.vList [Val.vStr "qwe", Val.vStr "asd"]),
        ("num", Val.vInt 200)],
      (k ∈ keysA [("b", Schema.list (.str false none true) none none),
          ("bar", Schema.attr none true),
          ("c", Schema.many (.attrOf "x" none true) (some "c")),
          ("num", Schema.int (some "i") true)] ∧
        k ≠ "" ∧ startsUnd k = false) ∨
      (k = "_text" ∧ (none : Option (String → Val)).isSome)) ∧
    ("_text" ∈ keysA [("bar", Val.vStr "baz"),
        ("c", Val.vList [Val.vStr "y", Val.vStr "z", Val.vNone]),
        ("b", Val.vList [Val.vStr "qwe", Val.vStr "asd"]),
        ("num", Val.vInt 200)] ↔ (none : Option (String → Val)).isSome) :=
  C10_object_keys
    [("b", Schema.list (.str false none true) none none),
     ("bar", Schema.attr none true),
     ("c", Schema.many (.attrOf "x" none true) (some "c")),
     ("num", Schema.int (some "i") true)]
    none false none fooNode
    [("bar", Val.vStr "baz"),
     ("c", Val.vList [Val.vStr "y", Val.vStr "z", Val.vNone]),
     ("b", Val.vList [Val.vStr "qwe", Val.vStr "asd"]),
     ("num", Val.vInt 200)] rfl

/-! ## State-passing Object lemmas (C8) -/

theorem fieldLoopSt_cons_attr (ow : Bool) (v : XNode) (key : String)
    (name : Option String) (np : Bool) (rest : List (String × Schema))
    (obj : List (String × Val)) (m : List (String × (String × Schema)))
    (hg : key ≠ "" ∧ startsUnd key = false ∧ (ow || !hasattrObj obj key)) :
    fieldLoopSt ow v ((key, .attr name np) :: rest) obj m =
      ((fieldLoopSt ow v rest
          (setA obj key (attrDo (some (name.getD key)) np v)) m).1,
       (key, .attr (some (name.getD key)) np) ::
         (fieldLoopSt ow v rest
           (setA obj key (attrDo (some (name.getD key)) np v)) m).2) := by
  simp only [fieldLoopSt]
  rw [if_pos hg]

theorem fieldLoopSt_cons_many (ow : Bool) (v : XNode) (key : String)
    (el : Schema) (nm : Option String) (rest : List (String × Schema))
    (obj : List (String × Val)) (m : List (String × (String × Schema)))
    (hg : key ≠ "" ∧ startsUnd key = false ∧ (ow || !hasattrObj obj key)) :
    fieldLoopSt ow v ((key, .many el nm) :: rest) obj m =
      (match loopConvM (fun c => convert el c) nm v.children with
       | .error e => (.error e, (key, Schema.many el nm) :: rest)
       | .ok l =>
           ((fieldLoopSt ow v rest (setA obj key (.vList l)) m).1,
            (key, Schema.many el nm) ::
              (fieldLoopSt ow v rest (setA obj key (.vList l)) m).2)) := by
  simp only [fieldLoopSt]
  rw [if_pos hg]

theorem fieldLoopSt_cons_defer (ow : Bool) (v : XNode) (key : String)
    (s : Schema) (rest : List (String × Schema)) (obj : List (String × Val))
    (m : List (String × (String × Schema)))
    (hg : key ≠ "" ∧ startsUnd key = false ∧ (ow || !hasattrObj obj key))
    (h1 : ∀ name np, s ≠ .attr name np) (h2 : ∀ el nm, s ≠ .many el nm) :
    fieldLoopSt ow v ((key, s) :: rest) obj m =
      ((fieldLoopSt ow v rest obj
          (setA m ((schemaName s).getD key) (key, s))).1,
       (key, s) ::
         (fieldLoopSt ow v rest obj
           (setA m ((schemaName s).getD key) (key, s))).2) := by
  simp only [fieldLoopSt]
  rw [if_pos hg]

theorem fieldLoopSt_cons_skip (ow : Bool) (v : XNode) (key : String)
    (s : Schema) (rest : List (String × Schema)) (obj : List (String × Val))
    (m : List (String × (String × Schema)))
    (hg : ¬(key ≠ "" ∧ startsUnd key = false ∧ (ow || !hasattrObj obj key))) :
    fieldLoopSt ow v ((key, s) :: rest) obj m =
      ((fieldLoopSt ow v rest obj m).1,
       (key, s) :: (fieldLoopSt ow v rest obj m).2) := by
  simp only [fieldLoopSt]
  rw [if_neg hg]

theorem fieldLoopSt_idem (ow : Bool) (v : XNode) :
    ∀ (fields : List (String × Schema)) (obj : List (String × Val))
      (m : List (String × (String × Schema))),
      fieldLoopSt ow v (fieldLoopSt ow v fields obj m).2 obj m =
        fieldLoopSt ow v fields obj m := by
  intro fields
  induction fields with
  | nil => intro obj m; rfl
  | cons p rest ih =>
    obtain ⟨key, s⟩ := p
    intro obj m
    by_cases hg : key ≠ "" ∧ startsUnd key = false ∧ (ow || !hasattrObj obj key)
    · cases s <;>
        first
        | (rw [fieldLoopSt_cons_attr ow v key _ _ rest obj m hg]
           try dsimp only
           rw [fieldLoopSt_cons_attr ow v key _ _ _ obj m hg]
           try dsimp only [Option.getD_some]
           rw [ih])
        | (rw [fieldLoopSt_cons_many ow v key _ _ rest obj m hg]
           cases hl : loopConvM _ _ v.children with
           | error e =>
             try dsimp only
             rw [fieldLoopSt_cons_many ow v key _ _ rest obj m hg, hl]
           | ok l =>
             try dsimp only
             rw [fieldLoopSt_cons_many ow v key _ _ _ obj m hg, hl]
             try dsimp only
             rw [ih])
        | (rw [fieldLoopSt_cons_defer ow v key _ rest obj m hg
              (fun a b h => Schema.noConfusion h)
              (fun a b h => Schema.noConfusion h)]
           try dsimp only
           rw [fieldLoopSt_cons_defer ow v key _ _ obj m hg
              (fun a b h => Schema.noConfusion h)
              (fun a b h => Schema.noConfusion h)]
           try dsimp only
           rw [ih])
    · rw [fieldLoopSt_cons_skip ow v key s rest obj m hg]
      try dsimp only
      rw [fieldLoopSt_cons_skip ow v key s (fieldLoopSt ow v rest obj m).2
          obj m hg]
      try dsimp only
      rw [ih obj m]

theorem objConvertSt_snd (ow : Bool) (txt : Option (String → Val))
    (fields : List (String × Schema)) (v : XNode) :
    (objConvertSt ow txt fields v).2 = (fieldLoopSt ow v fields [] []).2 := by
  unfold objConvertSt
  cases hfl : fieldLoopSt ow v fields [] [] with
  | mk res f2 =>
    cases res with
    | error e => rfl
    | ok om =>
      obtain ⟨obj, m⟩ := om
      show (match scanChildrenS m v.children obj with
            | Except.error e => (Except.error e, f2)
            | Except.ok obj2 =>
                (Except.ok (Val.vObj (textPhase txt v obj2)), f2)).2 = f2
      cases scanChildrenS m v.children obj <;> rfl

theorem objConvertSt_idem (ow : Bool) (txt : Option (String → Val))
    (fields : List (String × Schema)) (v : XNode) :
    objConvertSt ow txt ((objConvertSt ow txt fields v).2) v =
      objConvertSt ow txt fields v := by
  rw [objConvertSt_snd]
  unfold objConvertSt
  rw [fieldLoopSt_idem ow v fields [] []]

theorem fieldLoopSt_sets_name (ow : Bool) (v : XNode) :
    ∀ (fields : List (String × Schema)) (obj : List (String × Val))
      (m : List (String × (String × Schema))) (key : String) (np : Bool)
      (r : List (String × Val) × List (String × (String × Schema))),
      (fieldLoopSt ow v fields obj m).1 = .ok r →
      (key, Schema.attr none np) ∈ fields →
      (keysA fields).Nodup →
      key ≠ "" → startsUnd key = false →
      (ow = true ∨ (key ∉ objMethodNames ∧ lookupA obj key = none)) →
      lookupA (fieldLoopSt ow v fields obj m).2 key =
        some (.attr (some key) np) := by
  intro fields
  induction fields with
  | nil =>
    intro obj m key np r _ hmem _ _ _ _
    exact absurd hmem (by simp)
  | cons p rest ih =>
    obtain ⟨key0, s0⟩ := p
    intro obj m key np r hok hmem hnd hk1 hk2 hk3
    rw [keysA_cons] at hnd
    have hnd1 := (List.nodup_cons.1 hnd).1
    have hnd2 := (List.nodup_cons.1 hnd).2
    rcases List.mem_cons.1 hmem with hhead | htail
    · rw [Prod.mk.injEq] at hhead
      obtain ⟨hk0, hs0⟩ := hhead
      subst hk0
      subst hs0
      have hb : (ow || !hasattrObj obj key) = true := by
        rcases hk3 with h | ⟨h1, h2⟩
        · rw [h]
          rfl
        · have hfa : hasattrObj obj key = false := by
            unfold hasattrObj
            rw [h2]
            simp [h1]
          rw [hfa]
          simp
      rw [fieldLoopSt_cons_attr ow v key none np rest obj m ⟨hk1, hk2, hb⟩]
      dsimp only [Option.getD_none]
      simp [lookupA]
    · have hkmem : key ∈ keysA rest := by
        have := List.mem_map_of_mem Prod.fst htail
        exact this
      have hne : key0 ≠ key := by
        intro he
        exact hnd1 (he ▸ hkmem)
      by_cases hg : key0 ≠ "" ∧ startsUnd key0 = false ∧ (ow || !hasattrObj obj key0)
      · cases s0 <;>
          first
          | (rw [fieldLoopSt_cons_attr ow v key0 _ _ rest obj m hg] at hok ⊢
             dsimp only at hok ⊢
             simp only [lookupA]
             rw [if_neg hne]
             refine ih _ _ key np r hok htail hnd2 hk1 hk2 ?_
             rcases hk3 with h | ⟨h1, h2⟩
             · exact Or.inl h
             · exact Or.inr ⟨h1, by rw [lookupA_setA_ne _ _ _ _ hne, h2]⟩)
          | (rw [fieldLoopSt_cons_many ow v key0 _ _ rest obj m hg] at hok ⊢
             cases hl : loopConvM _ _ v.children with
             | error e =>
               rw [hl] at hok
               exact absurd hok (by simp)
             | ok l =>
               rw [hl] at hok
               dsimp only at hok ⊢
               simp only [lookupA]
               rw [if_neg hne]
               refine ih _ _ key np r hok htail hnd2 hk1 hk2 ?_
               rcases hk3 with h | ⟨h1, h2⟩
               · exact Or.inl h
               · exact Or.inr ⟨h1, by rw [lookupA_setA_ne _ _ _ _ hne, h2]⟩)
          | (rw [fieldLoopSt_cons_defer ow v key0 _ rest obj m hg
                (fun a b h => Schema.noConfusion h)
                (fun a b h => Schema.noConfusion h)] at hok ⊢
             dsimp only at hok ⊢
             simp only [lookupA]
             rw [if_neg hne]
             exact ih _ _ key np r hok htail hnd2 hk1 hk2 hk3)
      · rw [fieldLoopSt_cons_skip ow v key0 s0 rest obj m hg] at hok ⊢
        dsimp only at hok ⊢
        simp only [lookupA]
        rw [if_neg hne]
        exact ih _ _ key np r hok htail hnd2 hk1 hk2 hk3

/-- C8 (as amended): for an `Object` schema with an `Attribute` field
declared without an explicit name — the field name nonempty,
non-underscore, distinct from the other field names, and either
overwrite enabled or the name not shadowing an `_Object` method — a
successful conversion stores the owning field name as the attribute's
name, and the default-fill is idempotent: converting again with the
resulting schema state changes nothing — the whole state-passing
conversion is a fixed point, so the result of every subsequent
conversion equals the first.  The method-shadowing proviso is forced by
the code: `hasattr(obj, key)` sees the `_Object` methods, so such a
field is silently skipped and its name never set (see the
counterexample below). -/
theorem C8_attr_name_fixup (ow : Bool) (txt : Option (String → Val))
    (fields : List (String × Schema)) (v : XNode) (key : String) (np : Bool)
    (r : Val)
    (hok : (objConvertSt ow txt fields v).1 = .ok r)
    (hmem : (key, Schema.attr none np) ∈ fields)
    (hnd : (keysA fields).Nodup)
    (hk1 : key ≠ "") (hk2 : startsUnd key = false)
    (hk3 : ow = true ∨ key ∉ objMethodNames) :
    lookupA (objConvertSt ow txt fields v).2 key =
      some (.attr (some key) np) ∧
    objConvertSt ow txt ((objConvertSt ow txt fields v).2) v =
      objConvertSt ow txt fields v := by
  refine ⟨?_, objConvertSt_idem ow txt fields v⟩
  rw [objConvertSt_snd]
  cases hfl : fieldLoopSt ow v fields [] [] with
  | mk res f2 =>
    cases res with
    | error e =>
      exfalso
      have he : (objConvertSt ow txt fields v).1 = .error e := by
        unfold objConvertSt
        rw [hfl]
      rw [he] at hok
      exact absurd hok (by simp)
    | ok om =>
      have h1 : (fieldLoopSt ow v fields [] []).1 = .ok om := by rw [hfl]
      have hk3' : ow = true ∨ (key ∉ objMethodNames ∧
          lookupA ([] : List (String × Val)) key = none) := by
        rcases hk3 with h | h
        · exact Or.inl h
        · exact Or.inr ⟨h, rfl⟩
      have hsn := fieldLoopSt_sets_name ow v fields [] [] key np om h1 hmem hnd
        hk1 hk2 hk3'
      rw [hfl] at hsn
      exact hsn

/-- Witness for C8: one conversion of a schema with the unnamed
attribute field `bar` against `<x bar="baz"/>` stores the name `bar`,
and a second conversion is a fixed point. -/
theorem C8_attr_name_fixup_witness :
    lookupA (objConvertSt false none [("bar", Schema.attr none true)]
        (.mk "x" [("bar", "baz")] none [])).2 "bar" =
      some (Schema.attr (some "bar") true) ∧
    objConvertSt false none
        ((objConvertSt false none [("bar", Schema.attr none true)]
            (.mk "x" [("bar", "baz")] none [])).2)
        (.mk "x" [("bar", "baz")] none []) =
      objConvertSt false none [("bar", Schema.attr none true)]
        (.mk "x" [("bar", "baz")] none []) :=
  C8_attr_name_fixup false none [("bar", Schema.attr none true)]
    (.mk "x" [("bar", "baz")] none []) "bar" true
    (Val.vObj [("bar", Val.vStr "baz")]) rfl (by simp) (by simp [keysA])
    (by decide) rfl (Or.inr (by decide))

/-- Counterexample to C8 as frozen: an `Object` schema whose unnamed
`Attribute` field is named `keys` — one of the default aggregate's
method names — converted with overwrite disabled.  The conversion
succeeds, but the field is skipped by the guard
`self._overwrite or not hasattr(obj, key)` (`hasattr` sees the
`_Object` method `keys`), so the first conversion does NOT set the
field's stored name to the owning field name: the schema state is
unchanged and the stored name is still unset. -/
theorem C8_attr_name_fixup_counterexample :
    (objConvertSt false none [("keys", Schema.attr none true)]
        (.mk "x" [("keys", "v")] none [])).1 =
      .ok (.vObj []) ∧
    (objConvertSt false none [("keys", Schema.attr none true)]
        (.mk "x" [("keys", "v")] none [])).2 =
      [("keys", Schema.attr none true)] ∧
    lookupA (objConvertSt false none [("keys", Schema.attr none true)]
        (.mk "x" [("keys", "v")] none [])).2 "keys" ≠
      some (Schema.attr (some "keys") true) := by
  refine ⟨rfl, rfl, fun h => ?_⟩
  have h2 : (some (Schema.attr (none : Option String) true) :
      Option Schema) = some (Schema.attr (some "keys") true) := h
  simp at h2
